import Mathlib

/-!
Verification development for a bitboard Reversi (Othello) engine.

The engine represents the board as two 64-bit masks (`black`, `white`);
they are embedded here as natural numbers whose bits 0..63 carry the board
(a `u64` value is always `< 2^64`).  Machine-integer operations are
modelled with `Nat` bitwise operations restricted to bits 0..63, and the
`i32` scores of the search are modelled as `Int` (the algorithm never
overflows `i32`, which the development makes explicit where needed).
-/

set_option maxRecDepth 100000

/-- All 64 low bits set: the complement mask for `u64` bitwise `!`. -/
def mask64 : Nat := 2 ^ 64 - 1

/-- Population count of the 64 low bits, i.e. `u64::count_ones` for values `< 2^64`. -/
def popcount64 (x : Nat) : Nat :=
  (List.range 64).countP (fun i => x.testBit i)

/-- The two disc colours. -/
inductive PlayerColor where
  | Black
  | White
deriving DecidableEq, Repr

/-- `PlayerColor::opposite`. -/
def PlayerColor.opposite : PlayerColor → PlayerColor
  | PlayerColor.Black => PlayerColor.White
  | PlayerColor.White => PlayerColor.Black

/-- Bitboard pair: bit `row*8+col` of each mask tells whether that cell holds
a disc of the given colour. -/
structure Board where
  black : Nat
  white : Nat
deriving DecidableEq, Repr

/-- `Board::new`: the fixed starting position
(`black = 0x0000001008000000`, `white = 0x0000000810000000`). -/
def Board.new : Board :=
  { black := 0x0000001008000000, white := 0x0000000810000000 }

/-- `Board::get_piece`: black mask is tested first, then white. -/
def Board.get_piece (b : Board) (position : Nat) : Option PlayerColor :=
  if b.black.testBit position then some PlayerColor.Black
  else if b.white.testBit position then some PlayerColor.White
  else none

/-- `Board::is_empty`: neither mask holds the bit. -/
def Board.is_empty (b : Board) (position : Nat) : Bool :=
  !((b.black ||| b.white).testBit position)

/-- `Board::count_pieces`: population count of the colour's mask. -/
def Board.count_pieces (b : Board) (color : PlayerColor) : Nat :=
  match color with
  | PlayerColor.Black => popcount64 b.black
  | PlayerColor.White => popcount64 b.white

/-- `Board::get_empty_squares`: bitwise complement of `black | white` (64-bit). -/
def Board.get_empty_squares (b : Board) : Nat :=
  mask64 ^^^ (b.black ||| b.white)

/-- The eight ray directions, in the order the source declares them. -/
def DIRECTIONS : List (Int × Int) :=
  [(-1, -1), (-1, 0), (-1, 1), (0, -1), (0, 1), (1, -1), (1, 0), (1, 1)]

/-- Whether the (row, col) coordinate lies on the board, `(0..8).contains`. -/
def inBoard (r c : Int) : Bool :=
  decide (0 ≤ r ∧ r < 8 ∧ 0 ≤ c ∧ c < 8)

/-- The inner `while` of `get_moves_in_direction`: walk the ray from (r, c),
remembering whether an opponent disc has been crossed; report whether the
originating empty cell is a legal move along this ray.  The walk moves one
cell per step in a fixed non-zero direction, so it leaves the board after at
most 8 steps; fuel 8 therefore never runs out before the loop exits. -/
def walkMoves (own opp : Nat) (dx dy : Int) : Nat → Int → Int → Bool → Bool
  | 0, _, _, _ => false
  | fuel + 1, r, c, found_opponent =>
    if inBoard r c then
      let check_pos := (r * 8 + c).toNat
      if opp.testBit check_pos then
        walkMoves own opp dx dy fuel (r + dx) (c + dy) true
      else if own.testBit check_pos && found_opponent then
        true
      else
        false
    else
      false

/-- `Board::get_moves_in_direction`: scan all 64 cells; an empty cell becomes
a move when the ray in direction (dx, dy) crosses ≥ 1 opponent disc and then
an own disc. -/
def Board.get_moves_in_direction (own opp empty : Nat) (dx dy : Int) : Nat :=
  (List.range 64).foldl
    (fun moves pos =>
      if !(empty.testBit pos) then moves
      else if walkMoves own opp dx dy 8 ((pos / 8 : Nat) + dx) ((pos % 8 : Nat) + dy) false then
        moves ||| (1 <<< pos)
      else moves)
    0

/-- `Board::get_valid_moves`: union of the per-direction move masks. -/
def Board.get_valid_moves (b : Board) (player : PlayerColor) : Nat :=
  let own := match player with
    | PlayerColor.Black => b.black
    | PlayerColor.White => b.white
  let opp := match player with
    | PlayerColor.Black => b.white
    | PlayerColor.White => b.black
  let empty := b.get_empty_squares
  DIRECTIONS.foldl (fun moves d => moves ||| Board.get_moves_in_direction own opp empty d.1 d.2) 0

/-- `Board::get_valid_moves_list`: the set bits of the move mask in increasing
position order (the source pushes positions 0..63 in order). -/
def Board.get_valid_moves_list (b : Board) (player : PlayerColor) : List Nat :=
  let moves_mask := b.get_valid_moves player
  (List.range 64).filter (fun position => moves_mask.testBit position)

/-- `Board::is_valid_move`: in range, empty, and set in the legality mask
(the range test short-circuits before `is_empty`, as in the source). -/
def Board.is_valid_move (b : Board) (position : Nat) (player : PlayerColor) : Bool :=
  if 64 ≤ position then false
  else if !(b.is_empty position) then false
  else (b.get_valid_moves player).testBit position

/-- The inner `while` of `get_flipped_discs`: walk the ray accumulating
contiguous opponent discs; when an own disc closes the run the accumulated
candidates are flipped, otherwise nothing is. -/
def walkFlips (own opp : Nat) (dx dy : Int) : Nat → Int → Int → Nat → Nat
  | 0, _, _, _ => 0
  | fuel + 1, r, c, candidate_flips =>
    if inBoard r c then
      let check_pos := (r * 8 + c).toNat
      if opp.testBit check_pos then
        walkFlips own opp dx dy fuel (r + dx) (c + dy) (candidate_flips ||| (1 <<< check_pos))
      else if own.testBit check_pos then
        candidate_flips
      else
        0
    else
      0

/-- `Board::get_flipped_discs`: union over the eight directions of the
maximal run of opponent discs adjacent to `position` that is closed by an
own disc. -/
def Board.get_flipped_discs (b : Board) (position : Nat) (player : PlayerColor) : Nat :=
  let own := match player with
    | PlayerColor.Black => b.black
    | PlayerColor.White => b.white
  let opp := match player with
    | PlayerColor.Black => b.white
    | PlayerColor.White => b.black
  let row : Int := (position / 8 : Nat)
  let col : Int := (position % 8 : Nat)
  DIRECTIONS.foldl
    (fun flipped d => flipped ||| walkFlips own opp d.1 d.2 8 (row + d.1) (col + d.2) 0)
    0

/-- `Board::make_move`: the updated board together with the success flag.
An illegal move leaves the board untouched and returns `false`; a legal one
sets the placed disc and the flipped discs in the mover's mask and clears
the flipped discs from the opponent's mask. -/
def Board.make_move (b : Board) (position : Nat) (player : PlayerColor) : Board × Bool :=
  if !(b.is_valid_move position player) then (b, false)
  else
    let mask := 1 <<< position
    let flipped := b.get_flipped_discs position player
    match player with
    | PlayerColor.Black =>
      ({ black := b.black ||| (mask ||| flipped), white := b.white &&& (mask64 ^^^ flipped) }, true)
    | PlayerColor.White =>
      ({ white := b.white ||| (mask ||| flipped), black := b.black &&& (mask64 ^^^ flipped) }, true)

/-- `Board::has_valid_moves`: the legality mask is non-zero. -/
def Board.has_valid_moves (b : Board) (player : PlayerColor) : Bool :=
  b.get_valid_moves player != 0

/-- `Board::is_game_over`: neither colour has a legal move. -/
def Board.is_game_over (b : Board) : Bool :=
  (b.get_valid_moves PlayerColor.Black == 0) && (b.get_valid_moves PlayerColor.White == 0)

/-- `Board::get_winner`: `none` while the game is running, otherwise the
colour with the strictly larger disc count (`none` on a tie). -/
def Board.get_winner (b : Board) : Option PlayerColor :=
  if !b.is_game_over then none
  else
    let black_count := b.count_pieces PlayerColor.Black
    let white_count := b.count_pieces PlayerColor.White
    if black_count > white_count then some PlayerColor.Black
    else if white_count > black_count then some PlayerColor.White
    else none

/-- `Board::position_to_coords`. -/
def Board.position_to_coords (position : Nat) : Nat × Nat :=
  (position / 8, position % 8)

/-- `Board::coords_to_position`. -/
def Board.coords_to_position (row col : Nat) : Nat :=
  row * 8 + col

/-!
## Exact `f32` model

The evaluator mixes `i32` sub-scores with `f32` weights.  Every `f32` value
that the evaluator can produce is a dyadic rational in the normal range of
binary32, so `f32` is embedded as an unnormalised mantissa–exponent pair
`m * 2^e` with exact round-to-nearest-even to 24 significant bits after
every operation — exactly the IEEE-754 semantics of Rust's `f32` `*`, `+`,
the `i32 → f32` casts and the `f32 → i32` truncating cast on this range.
-/

/-- A dyadic rational `m * 2^e`; the carrier of the exact `f32` model. -/
structure Dyadic where
  m : Int
  e : Int
deriving DecidableEq, Repr

/-- Fuelled binary logarithm: `natLog2Go fuel n` is `⌊log₂ n⌋` whenever
`1 ≤ n ≤ fuel`. -/
def natLog2Go : Nat → Nat → Nat
  | 0, _ => 0
  | fuel + 1, n => if n ≤ 1 then 0 else natLog2Go fuel (n / 2) + 1

/-- `⌊log₂ n⌋` for `n ≥ 1` (structural, kernel-evaluable). -/
def natLog2 (n : Nat) : Nat :=
  natLog2Go n n

/-- Round a dyadic to 24 significant bits, ties to even: the binary32
rounding of a real in the normal range. -/
def roundF32 (d : Dyadic) : Dyadic :=
  let n := d.m.natAbs
  if n < 2 ^ 24 then d
  else
    let shift := natLog2 n - 23
    let q := n >>> shift
    let r := n &&& ((1 <<< shift) - 1)
    let half := 1 <<< (shift - 1)
    let q' := if r < half then q else if half < r then q + 1 else if q % 2 = 0 then q else q + 1
    if 0 ≤ d.m then { m := (q' : Int), e := d.e + shift }
    else { m := -(q' : Int), e := d.e + shift }

/-- `f32` multiplication: exact product, then binary32 rounding. -/
def f32mul (a b : Dyadic) : Dyadic :=
  roundF32 { m := a.m * b.m, e := a.e + b.e }

/-- `f32` addition: exact sum (exponent alignment), then binary32 rounding. -/
def f32add (a b : Dyadic) : Dyadic :=
  roundF32 <|
    if a.e ≤ b.e then { m := a.m + b.m * 2 ^ (b.e - a.e).toNat, e := a.e }
    else { m := a.m * 2 ^ (a.e - b.e).toNat + b.m, e := b.e }

/-- The `i32 → f32` cast (`score as f32`). -/
def intToF32 (z : Int) : Dyadic :=
  roundF32 { m := z, e := 0 }

/-- Truncation toward zero of a dyadic to an integer. -/
def dtrunc (d : Dyadic) : Int :=
  if 0 ≤ d.e then d.m * 2 ^ d.e.toNat
  else if 0 ≤ d.m then (d.m.toNat >>> (-d.e).toNat : Nat)
  else -((-d.m).toNat >>> (-d.e).toNat : Nat)

/-- The saturating `f32 → i32` cast (`expr as i32`): truncate toward zero,
clamp to the `i32` range. -/
def i32cast (d : Dyadic) : Int :=
  max (-(2 ^ 31)) (min (2 ^ 31 - 1) (dtrunc d))

/-!
## Evaluator

The `f32` weight literals are written as their exact binary32 values:
`0.2f32 = 13421773 * 2^-26`, `0.4f32 = 13421773 * 2^-25`,
`0.6f32 = 10066330 * 2^-24`, `0.8f32 = 13421773 * 2^-24`, `1.0f32 = 1`.
-/

/-- The per-phase weight record (`EvaluationWeights`), with exact `f32`
field values. -/
structure EvaluationWeights where
  corner : Dyadic
  stability : Dyadic
  mobility : Dyadic
  positional : Dyadic
  parity : Dyadic
deriving DecidableEq, Repr

/-- `EvaluationWeights::for_stage`: opening `0..=20`, midgame `21..=45`,
endgame otherwise. -/
def EvaluationWeights.for_stage (move_number : Nat) : EvaluationWeights :=
  if move_number ≤ 20 then
    { corner := ⟨13421773, -24⟩, stability := ⟨10066330, -24⟩, mobility := ⟨1, 0⟩,
      positional := ⟨13421773, -24⟩, parity := ⟨13421773, -26⟩ }
  else if move_number ≤ 45 then
    { corner := ⟨1, 0⟩, stability := ⟨13421773, -24⟩, mobility := ⟨10066330, -24⟩,
      positional := ⟨10066330, -24⟩, parity := ⟨13421773, -25⟩ }
  else
    { corner := ⟨1, 0⟩, stability := ⟨1, 0⟩, mobility := ⟨13421773, -26⟩,
      positional := ⟨13421773, -25⟩, parity := ⟨13421773, -24⟩ }

/-- `POSITION_WEIGHTS`: the fixed 64-entry positional table. -/
def POSITION_WEIGHTS : List Int :=
  [100, -20, 10, 5, 5, 10, -20, 100,
   -20, -50, -2, -2, -2, -2, -50, -20,
   10, -2, -1, -1, -1, -1, -2, 10,
   5, -2, -1, -1, -1, -1, -2, 5,
   5, -2, -1, -1, -1, -1, -2, 5,
   10, -2, -1, -1, -1, -1, -2, 10,
   -20, -50, -2, -2, -2, -2, -50, -20,
   100, -20, 10, 5, 5, 10, -20, 100]

/-- `evaluate_corners`: ±100 per owned/lost corner (cells 0, 7, 56, 63). -/
def evaluate_corners (b : Board) (player : PlayerColor) : Int :=
  [0, 7, 56, 63].foldl
    (fun score corner =>
      match b.get_piece corner with
      | some color => if color = player then score + 100 else score - 100
      | none => score)
    0

/-- `is_stable_piece`: the simplified border test (row or column 0 or 7). -/
def is_stable_piece (_b : Board) (position : Nat) : Bool :=
  let row := position / 8
  let col := position % 8
  row == 0 || row == 7 || col == 0 || col == 7

/-- `evaluate_stability`: 50 per *player* disc on the border; the opponent's
discs are not inspected (the `_opponent_pieces` binding in the source is
unused). -/
def evaluate_stability (b : Board) (player : PlayerColor) : Int :=
  let player_pieces := match player with
    | PlayerColor.Black => b.black
    | PlayerColor.White => b.white
  let stable_count : Int :=
    (List.range 64).foldl
      (fun count position =>
        if player_pieces.testBit position && is_stable_piece b position then count + 1 else count)
      0
  stable_count * 50

/-- `evaluate_mobility`: 30 × (own move count − opponent move count). -/
def evaluate_mobility (b : Board) (player : PlayerColor) : Int :=
  ((popcount64 (b.get_valid_moves player) : Int)
    - (popcount64 (b.get_valid_moves player.opposite) : Int)) * 30

/-- `evaluate_positional`: the positional table added for own discs,
subtracted for opponent discs. -/
def evaluate_positional (b : Board) (player : PlayerColor) : Int :=
  (List.range 64).foldl
    (fun score position =>
      match b.get_piece position with
      | some color =>
        if color = player then score + POSITION_WEIGHTS.getD position 0
        else score - POSITION_WEIGHTS.getD position 0
      | none => score)
    0

/-- `evaluate_parity`: +10 on an odd number of empty cells, −10 otherwise,
independent of the player asked. -/
def evaluate_parity (b : Board) (_player : PlayerColor) : Int :=
  if popcount64 b.get_empty_squares % 2 == 1 then 10 else -10

/-- `evaluate_board`: phase weights from the total disc count, then the
left-associated `f32` weighted sum of the five sub-scores, cast to `i32`. -/
def evaluate_board (b : Board) (player : PlayerColor) : Int :=
  let move_count := b.count_pieces PlayerColor.Black + b.count_pieces PlayerColor.White
  let weights := EvaluationWeights.for_stage move_count
  let corner_score := intToF32 (evaluate_corners b player)
  let stability_score := intToF32 (evaluate_stability b player)
  let mobility_score := intToF32 (evaluate_mobility b player)
  let positional_score := intToF32 (evaluate_positional b player)
  let parity_score := intToF32 (evaluate_parity b player)
  i32cast
    (f32add
      (f32add
        (f32add
          (f32add (f32mul corner_score weights.corner) (f32mul stability_score weights.stability))
          (f32mul mobility_score weights.mobility))
        (f32mul positional_score weights.positional))
      (f32mul parity_score weights.parity))

/-!
## Search engine

`minimax` is the alpha-beta search of the source; `minimax_np` is the
comparison definition for the refinement claim, modelled from the spec's
words ("an exhaustive minimax without pruning"): identical except that the
move loops ignore the window and never break.
-/

/-- `i32::MIN`. -/
def intMin : Int := -(2 ^ 31)

/-- `i32::MAX`. -/
def intMax : Int := 2 ^ 31 - 1

/-- The maximizing move loop of `minimax`: running best `maxEval`, running
`alpha`, break as soon as `beta ≤ alpha` after an update. -/
def abMaxLoop (recurse : Nat → Int → Int) (beta : Int) :
    List Nat → Int → Int → Int
  | [], maxEval, _ => maxEval
  | chess_move :: rest, maxEval, alpha =>
    let eval := recurse chess_move alpha
    let maxEval' := max maxEval eval
    let alpha' := max alpha eval
    if beta ≤ alpha' then maxEval'
    else abMaxLoop recurse beta rest maxEval' alpha'

/-- The minimizing move loop of `minimax`: running best `minEval`, running
`beta`, break as soon as `beta ≤ alpha` after an update. -/
def abMinLoop (recurse : Nat → Int → Int) (alpha : Int) :
    List Nat → Int → Int → Int
  | [], minEval, _ => minEval
  | chess_move :: rest, minEval, beta =>
    let eval := recurse chess_move beta
    let minEval' := min minEval eval
    let beta' := min beta eval
    if beta' ≤ alpha then minEval'
    else abMinLoop recurse alpha rest minEval' beta'

/-- `minimax`: alpha-beta search.  Terminal at depth 0 or game over;
a side with no moves is skipped (depth still decreases); otherwise the
maximizing/minimizing loop over the legal moves of the side to move. -/
def minimax : Nat → Board → Int → Int → Bool → PlayerColor → Int
  | 0, board, _, _, _, player => evaluate_board board player
  | depth + 1, board, alpha, beta, maximizing, player =>
    if board.is_game_over then evaluate_board board player
    else
      let current_player := if maximizing then player else player.opposite
      let moves := board.get_valid_moves_list current_player
      if moves.isEmpty then minimax depth board alpha beta (!maximizing) player
      else if maximizing then
        abMaxLoop
          (fun chess_move a =>
            minimax depth (board.make_move chess_move current_player).1 a beta false player)
          beta moves intMin alpha
      else
        abMinLoop
          (fun chess_move bt =>
            minimax depth (board.make_move chess_move current_player).1 alpha bt true player)
          alpha moves intMax beta

/-- The move loop of exhaustive minimax (maximizing): plain running maximum. -/
def npMaxLoop (value : Nat → Int) : List Nat → Int → Int
  | [], maxEval => maxEval
  | chess_move :: rest, maxEval => npMaxLoop value rest (max maxEval (value chess_move))

/-- The move loop of exhaustive minimax (minimizing): plain running minimum. -/
def npMinLoop (value : Nat → Int) : List Nat → Int → Int
  | [], minEval => minEval
  | chess_move :: rest, minEval => npMinLoop value rest (min minEval (value chess_move))

/-- Modelled from the spec: "an exhaustive minimax without pruning" — the
same recursion as `minimax` with the alpha-beta window and the break
removed. -/
def minimax_np : Nat → Board → Bool → PlayerColor → Int
  | 0, board, _, player => evaluate_board board player
  | depth + 1, board, maximizing, player =>
    if board.is_game_over then evaluate_board board player
    else
      let current_player := if maximizing then player else player.opposite
      let moves := board.get_valid_moves_list current_player
      if moves.isEmpty then minimax_np depth board (!maximizing) player
      else if maximizing then
        npMaxLoop
          (fun chess_move =>
            minimax_np depth (board.make_move chess_move current_player).1 false player)
          moves intMin
      else
        npMinLoop
          (fun chess_move =>
            minimax_np depth (board.make_move chess_move current_player).1 true player)
          moves intMax

/-- `SearchResult`. -/
structure SearchResult where
  best_move : Option Nat
  evaluation : Int
  depth_reached : Nat
  nodes_evaluated : Nat
  completed : Bool
deriving DecidableEq, Repr

/-- `SearchResult::default()`. -/
def SearchResult.default : SearchResult :=
  { best_move := none, evaluation := 0, depth_reached := 0, nodes_evaluated := 0,
    completed := false }

/-- Rust's `Iterator::max_by_key` on a non-empty list: the fold keeps the
accumulator only when its key is strictly greater, so the *last* of several
maximal elements wins. -/
def pickMax (head : Nat × Int) (rest : List (Nat × Int)) : Nat × Int :=
  rest.foldl (fun best p => if best.2 > p.2 then best else p) head

/-- `find_best_move`: score every legal move by `minimax` at `depth - 1`
over the full window, starting in the minimizing ply, then take the
`max_by_key` of the (move, score) list. -/
def find_best_move (board : Board) (depth : Nat) (player : PlayerColor) : SearchResult :=
  match board.get_valid_moves_list player with
  | [] => SearchResult.default
  | m :: rest =>
    let best := pickMax
      (m, minimax (depth - 1) (board.make_move m player).1 intMin intMax false player)
      (rest.map (fun chess_move =>
        (chess_move,
          minimax (depth - 1) (board.make_move chess_move player).1 intMin intMax false player)))
    { best_move := some best.1, evaluation := best.2, depth_reached := depth,
      nodes_evaluated := 0, completed := true }

/-- `find_best_move` with the exhaustive minimax substituted — the
comparison point of the refinement claim. -/
def find_best_move_np (board : Board) (depth : Nat) (player : PlayerColor) : SearchResult :=
  match board.get_valid_moves_list player with
  | [] => SearchResult.default
  | m :: rest =>
    let best := pickMax
      (m, minimax_np (depth - 1) (board.make_move m player).1 false player)
      (rest.map (fun chess_move =>
        (chess_move, minimax_np (depth - 1) (board.make_move chess_move player).1 false player)))
    { best_move := some best.1, evaluation := best.2, depth_reached := depth,
      nodes_evaluated := 0, completed := true }

/-- The border cells (row or column 0 or 7) as a bitmask. -/
def borderMask : Nat := 0xFF818181818181FF

/-- The boards reachable from the starting position through `make_move`
(legal or rejected — a rejected move leaves the board unchanged). -/
inductive Reachable : Board → Prop
  | start : Reachable Board.new
  | step (b : Board) (pos : Nat) (p : PlayerColor) :
      Reachable b → Reachable (b.make_move pos p).1

/-!
## Helper lemmas
-/

theorem foldl_count_int (p : Nat → Bool) :
    ∀ (l : List Nat) (acc : Int),
      l.foldl (fun c x => if p x then c + 1 else c) acc = acc + l.countP p := by
  intro l
  induction l with
  | nil => intro acc; simp
  | cons x xs ih =>
    intro acc
    by_cases hp : p x = true
    · simp [List.foldl_cons, List.countP_cons, hp, ih]; ring
    · simp only [Bool.not_eq_true] at hp
      simp [List.foldl_cons, List.countP_cons, hp, ih]

theorem countP_congr' {p q : Nat → Bool} :
    ∀ (l : List Nat), (∀ x ∈ l, p x = q x) → l.countP p = l.countP q := by
  intro l
  induction l with
  | nil => intro _; simp
  | cons x xs ih =>
    intro h
    have hx := h x (by simp)
    simp [List.countP_cons, hx, ih (fun y hy => h y (by simp [hy]))]

theorem land_eq_zero_iff {x y : Nat} :
    x &&& y = 0 ↔ ∀ i, x.testBit i = true → y.testBit i = false := by
  constructor
  · intro h i hx
    have hbit := congrArg (fun n => n.testBit i) h
    simp only [Nat.testBit_and, Nat.zero_testBit] at hbit
    cases hy : y.testBit i
    · rfl
    · rw [hx, hy] at hbit; simp at hbit
  · intro h
    apply Nat.eq_of_testBit_eq
    intro i
    simp only [Nat.testBit_and, Nat.zero_testBit]
    cases hx : x.testBit i
    · simp
    · simp [h i hx]

theorem inBoard_elim {r c : Int} (h : inBoard r c = true) :
    0 ≤ r ∧ r < 8 ∧ 0 ≤ c ∧ c < 8 :=
  of_decide_eq_true h

theorem walkFlips_bits (own opp : Nat) (dx dy : Int) :
    ∀ (fuel : Nat) (r c : Int) (cand : Nat) (j : Nat),
      (walkFlips own opp dx dy fuel r c cand).testBit j = true →
      (cand.testBit j = true ∨ (opp.testBit j = true ∧ j < 64)) := by
  intro fuel
  induction fuel with
  | zero => intro r c cand j h; simp [walkFlips] at h
  | succ fuel ih =>
    intro r c cand j h
    simp only [walkFlips] at h
    by_cases hin : inBoard r c = true
    · rw [if_pos hin] at h
      obtain ⟨hr0, hr8, hc0, hc8⟩ := inBoard_elim hin
      have hcp : (r * 8 + c).toNat < 64 := by omega
      by_cases hopp : opp.testBit (r * 8 + c).toNat = true
      · rw [if_pos hopp] at h
        rcases ih (r + dx) (c + dy) (cand ||| 1 <<< (r * 8 + c).toNat) j h with hc | ho
        · rw [Nat.testBit_or, Nat.one_shiftLeft, Nat.testBit_two_pow] at hc
          rcases Bool.or_eq_true_iff.mp hc with h1 | h2
          · exact Or.inl h1
          · have hj : (r * 8 + c).toNat = j := of_decide_eq_true h2
            exact Or.inr ⟨hj ▸ hopp, hj ▸ hcp⟩
        · exact Or.inr ho
      · rw [if_neg hopp] at h
        by_cases hown : own.testBit (r * 8 + c).toNat = true
        · rw [if_pos hown] at h; exact Or.inl h
        · rw [if_neg hown] at h; simp at h
    · rw [if_neg hin] at h; simp at h

theorem foldl_or_bits {α : Type} (g : α → Nat) (Q : Nat → Prop) :
    ∀ (l : List α) (acc : Nat), (∀ j, acc.testBit j = true → Q j) →
      (∀ x ∈ l, ∀ j, (g x).testBit j = true → Q j) →
      ∀ j, (l.foldl (fun a x => a ||| g x) acc).testBit j = true → Q j := by
  intro l
  induction l with
  | nil => intro acc hacc _ j h; exact hacc j h
  | cons x xs ih =>
    intro acc hacc hall j h
    refine ih (acc ||| g x) ?_ (fun y hy => hall y (by simp [hy])) j h
    intro i hi
    rw [Nat.testBit_or] at hi
    rcases Bool.or_eq_true_iff.mp hi with h1 | h2
    · exact hacc i h1
    · exact hall x (by simp) i h2

theorem get_flipped_discs_spec (b : Board) (pos : Nat) (p : PlayerColor) :
    ∀ j, (b.get_flipped_discs pos p).testBit j = true →
      ((match p with
        | PlayerColor.Black => b.white
        | PlayerColor.White => b.black).testBit j = true ∧ j < 64) := by
  cases p <;>
  · simp only [Board.get_flipped_discs]
    refine foldl_or_bits _ _ DIRECTIONS 0 (by simp) ?_
    intro d _ j hj
    rcases walkFlips_bits _ _ d.1 d.2 8 _ _ 0 j hj with h0 | h
    · simp at h0
    · exact h

theorem is_valid_move_elim {b : Board} {pos : Nat} {p : PlayerColor}
    (h : b.is_valid_move pos p = true) :
    pos < 64 ∧ b.black.testBit pos = false ∧ b.white.testBit pos = false ∧
      (b.get_valid_moves p).testBit pos = true := by
  by_cases h64 : 64 ≤ pos
  · simp [Board.is_valid_move, h64] at h
  · by_cases hemp : b.is_empty pos = true
    · simp only [Board.is_valid_move, if_neg h64, hemp, Bool.not_true, Bool.false_eq_true,
        if_false] at h
      simp only [Board.is_empty, Bool.not_eq_true', Nat.testBit_or,
        Bool.or_eq_false_iff] at hemp
      exact ⟨by omega, hemp.1, hemp.2, h⟩
    · simp only [Bool.not_eq_true] at hemp
      simp [Board.is_valid_move, h64, hemp] at h

theorem countP_or_disjoint (x y : Nat) :
    ∀ l : List Nat, (∀ i ∈ l, x.testBit i = true → y.testBit i = false) →
      l.countP (fun i => (x ||| y).testBit i)
        = l.countP (fun i => x.testBit i) + l.countP (fun i => y.testBit i) := by
  intro l
  induction l with
  | nil => intro _; simp
  | cons a as ih =>
    intro h
    have ha := h a (by simp)
    have htail := ih (fun i hi => h i (by simp [hi]))
    rw [List.countP_cons, List.countP_cons, List.countP_cons]
    simp only [Nat.testBit_or] at htail ⊢
    cases hx : x.testBit a
    · cases hy : y.testBit a <;> simp <;> omega
    · have hy : y.testBit a = false := ha hx
      simp [hy]
      omega

theorem countP_and_complement (opp flipped : Nat) :
    ∀ l : List Nat, (∀ i ∈ l, i < 64) →
      (∀ i ∈ l, flipped.testBit i = true → opp.testBit i = true) →
      l.countP (fun i => (opp &&& (mask64 ^^^ flipped)).testBit i)
        + l.countP (fun i => flipped.testBit i)
        = l.countP (fun i => opp.testBit i) := by
  intro l
  induction l with
  | nil => intro _ _; simp
  | cons a as ih =>
    intro h64 hsub
    have ha64 : a < 64 := h64 a (by simp)
    have hmask : mask64.testBit a = true := by
      simp only [mask64]
      rw [Nat.testBit_two_pow_sub_one]
      exact decide_eq_true ha64
    have htail := ih (fun i hi => h64 i (by simp [hi])) (fun i hi => hsub i (by simp [hi]))
    rw [List.countP_cons, List.countP_cons, List.countP_cons]
    simp only [Nat.testBit_and, Nat.testBit_xor] at htail ⊢
    rw [hmask]
    cases hf : flipped.testBit a
    · cases ho : opp.testBit a <;> simp <;> omega
    · have ho : opp.testBit a = true := hsub a (by simp) hf
      simp [ho]
      omega

theorem countP_single_bit {pos : Nat} (hpos : pos < 64) :
    (List.range 64).countP (fun i => (1 <<< pos).testBit i) = 1 := by
  have hcong : (List.range 64).countP (fun i => (1 <<< pos).testBit i)
      = (List.range 64).countP (fun i => i == pos) := by
    apply countP_congr'
    intro x _
    rw [Nat.one_shiftLeft, Nat.testBit_two_pow]
    cases hx : (x == pos)
    · have : ¬ x = pos := by simpa using hx
      simp [Ne.symm this]
    · have : x = pos := by simpa using hx
      simp [this]
  rw [hcong]
  have : (List.range 64).countP (fun i => i == pos) = (List.range 64).count pos := rfl
  rw [this]
  exact List.count_eq_one_of_mem (List.nodup_range 64) (List.mem_range.mpr hpos)

theorem popcount_make (own opp pos flipped : Nat)
    (hpos : pos < 64)
    (hoe : own.testBit pos = false) (hope : opp.testBit pos = false)
    (hdisj : ∀ i, own.testBit i = true → opp.testBit i = false)
    (hsub : ∀ i, flipped.testBit i = true → opp.testBit i = true) :
    popcount64 (own ||| ((1 <<< pos) ||| flipped)) = popcount64 own + 1 + popcount64 flipped ∧
    popcount64 (opp &&& (mask64 ^^^ flipped)) + popcount64 flipped = popcount64 opp := by
  have hbit : ∀ i : Nat, (1 <<< pos).testBit i = true → i = pos := by
    intro i hi
    rw [Nat.one_shiftLeft, Nat.testBit_two_pow] at hi
    exact (of_decide_eq_true hi).symm
  constructor
  · simp only [popcount64]
    rw [countP_or_disjoint own ((1 <<< pos) ||| flipped) (List.range 64) ?hd1]
    case hd1 =>
      intro i _ hio
      cases hbf : ((1 <<< pos) ||| flipped).testBit i
      · rfl
      · rw [Nat.testBit_or] at hbf
        rcases Bool.or_eq_true_iff.mp hbf with h1 | h2
        · have := hbit i h1; subst this; rw [hio] at hoe; exact absurd hoe (by simp)
        · have := hsub i h2; rw [hdisj i hio] at this; exact absurd this (by simp)
    rw [countP_or_disjoint (1 <<< pos) flipped (List.range 64) ?hd2]
    case hd2 =>
      intro i _ h1
      have := hbit i h1; subst this
      cases hf : flipped.testBit i
      · rfl
      · have := hsub i hf; rw [this] at hope; exact absurd hope (by simp)
    rw [countP_single_bit hpos]
    omega
  · simp only [popcount64]
    exact countP_and_complement opp flipped (List.range 64)
      (fun i hi => List.mem_range.mp hi) (fun i _ hf => hsub i hf)

/-- Preservation of the no-overlap invariant by `make_move` (legal or not). -/
theorem make_move_disjoint (b : Board) (pos : Nat) (p : PlayerColor)
    (h : b.black &&& b.white = 0) :
    ((b.make_move pos p).1.black &&& (b.make_move pos p).1.white) = 0 := by
  by_cases hv : b.is_valid_move pos p = true
  · obtain ⟨hpos, hbe, hwe, _⟩ := is_valid_move_elim hv
    have hflip := get_flipped_discs_spec b pos p
    have hdisj := land_eq_zero_iff.mp h
    have hbit : ∀ i : Nat, (1 <<< pos).testBit i = true → i = pos := by
      intro i hi
      rw [Nat.one_shiftLeft, Nat.testBit_two_pow] at hi
      exact (of_decide_eq_true hi).symm
    cases p
    · -- Black to move
      simp only [Board.make_move, hv, Bool.not_true, Bool.false_eq_true, if_false]
      apply land_eq_zero_iff.mpr
      intro i hib
      rw [Nat.testBit_or] at hib
      simp only [Nat.testBit_and, Nat.testBit_xor, Bool.and_eq_false_iff]
      rcases Bool.or_eq_true_iff.mp hib with h1 | h2
      · exact Or.inl (hdisj i h1)
      · rw [Nat.testBit_or] at h2
        rcases Bool.or_eq_true_iff.mp h2 with h3 | h4
        · have := hbit i h3; subst this; exact Or.inl hwe
        · obtain ⟨hw, hi64⟩ := hflip i h4
          refine Or.inr ?_
          have hmask : mask64.testBit i = true := by
            simp only [mask64]
            rw [Nat.testBit_two_pow_sub_one]
            exact decide_eq_true hi64
          rw [hmask, h4]
          rfl
    · -- White to move
      simp only [Board.make_move, hv, Bool.not_true, Bool.false_eq_true, if_false]
      apply land_eq_zero_iff.mpr
      intro i hib
      simp only [Nat.testBit_and, Nat.testBit_xor, Bool.and_eq_true] at hib
      obtain ⟨hblk, hxor⟩ := hib
      simp only [Nat.testBit_or, Bool.or_eq_false_iff]
      constructor
      · cases hw : b.white.testBit i
        · rfl
        · have := hdisj i hblk; rw [hw] at this; exact absurd this (by simp)
      · constructor
        · cases hm : (1 <<< pos).testBit i
          · rfl
          · have := hbit i hm; subst this; rw [hblk] at hbe; exact absurd hbe (by simp)
        · cases hf : (b.get_flipped_discs pos PlayerColor.White).testBit i
          · rfl
          · obtain ⟨hb2, hi64⟩ := hflip i hf
            have hmask : mask64.testBit i = true := by
              simp only [mask64]
              rw [Nat.testBit_two_pow_sub_one]
              exact decide_eq_true hi64
            rw [hmask, hf] at hxor
            exact absurd hxor (by simp)
  · simp only [Bool.not_eq_true] at hv
    simp [Board.make_move, hv, h]

theorem is_stable_piece_eq_borderMask (b : Board) :
    ∀ pos, pos < 64 → is_stable_piece b pos = borderMask.testBit pos := by
  have h : ∀ pos, pos < 64 →
      is_stable_piece { black := 0, white := 0 } pos = borderMask.testBit pos := by decide
  intro pos hpos
  exact h pos hpos

theorem npMaxLoop_init_le (value : Nat → Int) :
    ∀ (ms : List Nat) (M : Int), M ≤ npMaxLoop value ms M := by
  intro ms
  induction ms with
  | nil => intro M; simp [npMaxLoop]
  | cons m rest ih =>
    intro M
    exact le_trans (le_max_left M (value m)) (ih (max M (value m)))

theorem npMaxLoop_le (value : Nat → Int) (hi : Int) :
    ∀ (ms : List Nat) (M : Int), M ≤ hi → (∀ m ∈ ms, value m ≤ hi) →
      npMaxLoop value ms M ≤ hi := by
  intro ms
  induction ms with
  | nil => intro M hM _; simpa [npMaxLoop] using hM
  | cons m rest ih =>
    intro M hM hall
    exact ih (max M (value m)) (max_le hM (hall m (by simp)))
      (fun x hx => hall x (by simp [hx]))

theorem npMaxLoop_max (value : Nat → Int) :
    ∀ (ms : List Nat) (M x : Int),
      npMaxLoop value ms (max M x) = max (npMaxLoop value ms M) x := by
  intro ms
  induction ms with
  | nil => intro M x; simp [npMaxLoop]
  | cons m rest ih =>
    intro M x
    show npMaxLoop value rest (max (max M x) (value m)) = _
    rw [sup_right_comm, ih (max M (value m)) x]
    rfl

theorem npMinLoop_le_init (value : Nat → Int) :
    ∀ (ms : List Nat) (M : Int), npMinLoop value ms M ≤ M := by
  intro ms
  induction ms with
  | nil => intro M; simp [npMinLoop]
  | cons m rest ih =>
    intro M
    exact le_trans (ih (min M (value m))) (min_le_left M (value m))

theorem npMinLoop_ge (value : Nat → Int) (lo : Int) :
    ∀ (ms : List Nat) (M : Int), lo ≤ M → (∀ m ∈ ms, lo ≤ value m) →
      lo ≤ npMinLoop value ms M := by
  intro ms
  induction ms with
  | nil => intro M hM _; simpa [npMinLoop] using hM
  | cons m rest ih =>
    intro M hM hall
    exact ih (min M (value m)) (le_min hM (hall m (by simp)))
      (fun x hx => hall x (by simp [hx]))

theorem npMinLoop_min (value : Nat → Int) :
    ∀ (ms : List Nat) (M x : Int),
      npMinLoop value ms (min M x) = min (npMinLoop value ms M) x := by
  intro ms
  induction ms with
  | nil => intro M x; simp [npMinLoop]
  | cons m rest ih =>
    intro M x
    show npMinLoop value rest (min (min M x) (value m)) = _
    rw [min_right_comm, ih (min M (value m)) x]
    rfl

theorem i32cast_bounds (d : Dyadic) : intMin ≤ i32cast d ∧ i32cast d ≤ intMax := by
  unfold i32cast intMin intMax
  refine ⟨le_max_left _ _, max_le (by decide) (min_le_left _ _)⟩

theorem evaluate_board_bounds (b : Board) (p : PlayerColor) :
    intMin ≤ evaluate_board b p ∧ evaluate_board b p ≤ intMax := by
  simp only [evaluate_board]
  exact i32cast_bounds _

theorem minimax_np_bounds :
    ∀ (d : Nat) (b : Board) (mz : Bool) (p : PlayerColor),
      intMin ≤ minimax_np d b mz p ∧ minimax_np d b mz p ≤ intMax := by
  intro d
  induction d with
  | zero =>
    intro b mz p
    exact evaluate_board_bounds b p
  | succ d ih =>
    intro b mz p
    by_cases hgo : b.is_game_over = true
    · have e : minimax_np (d + 1) b mz p = evaluate_board b p := by
        simp [minimax_np, hgo]
      rw [e]
      exact evaluate_board_bounds b p
    · cases mz with
      | true =>
        by_cases hemp : (b.get_valid_moves_list p).isEmpty = true
        · have e : minimax_np (d + 1) b true p = minimax_np d b false p := by
            simp [minimax_np, hgo, hemp]
          rw [e]
          exact ih b false p
        · have e : minimax_np (d + 1) b true p
              = npMaxLoop (fun m => minimax_np d (b.make_move m p).1 false p)
                  (b.get_valid_moves_list p) intMin := by
            simp [minimax_np, hgo, hemp]
          rw [e]
          constructor
          · exact npMaxLoop_init_le _ _ _
          · exact npMaxLoop_le _ _ _ _ (by decide)
              (fun m _ => (ih (b.make_move m p).1 false p).2)
      | false =>
        by_cases hemp : (b.get_valid_moves_list p.opposite).isEmpty = true
        · have e : minimax_np (d + 1) b false p = minimax_np d b true p := by
            simp [minimax_np, hgo, hemp]
          rw [e]
          exact ih b true p
        · have e : minimax_np (d + 1) b false p
              = npMinLoop (fun m => minimax_np d (b.make_move m p.opposite).1 true p)
                  (b.get_valid_moves_list p.opposite) intMax := by
            simp [minimax_np, hgo, hemp]
          rw [e]
          constructor
          · exact npMinLoop_ge _ _ _ _ (by decide)
              (fun m _ => (ih (b.make_move m p.opposite).1 true p).1)
          · exact npMinLoop_le_init _ _ _

/-- Fail-soft correctness of the pruned maximizing loop relative to the
exhaustive maximizing loop, given the same property for every child. -/
theorem abMaxLoop_spec
    (value : Nat → Int) (recurse : Nat → Int → Int) (beta : Int)
    (hrec : ∀ m a, intMin ≤ a → a < beta →
      (value m ≤ a → recurse m a ≤ a ∧ value m ≤ recurse m a) ∧
      (beta ≤ value m → beta ≤ recurse m a ∧ recurse m a ≤ value m) ∧
      (a < value m → value m < beta → recurse m a = value m)) :
    ∀ (ms : List Nat) (M a : Int), intMin ≤ M → M ≤ a → a < beta →
      (npMaxLoop value ms M ≤ a →
        abMaxLoop recurse beta ms M a ≤ a ∧
          npMaxLoop value ms M ≤ abMaxLoop recurse beta ms M a) ∧
      (beta ≤ npMaxLoop value ms M →
        beta ≤ abMaxLoop recurse beta ms M a ∧
          abMaxLoop recurse beta ms M a ≤ npMaxLoop value ms M) ∧
      (a < npMaxLoop value ms M → npMaxLoop value ms M < beta →
        abMaxLoop recurse beta ms M a = npMaxLoop value ms M) := by
  intro ms
  induction ms with
  | nil =>
    intro M a hMmin hMa hab
    simp only [abMaxLoop, npMaxLoop]
    omega
  | cons m rest ih =>
    intro M a hMmin hMa hab
    obtain ⟨hlow, hhigh, hmid⟩ := hrec m a (le_trans hMmin hMa) hab
    have hnp : npMaxLoop value (m :: rest) M
        = max (npMaxLoop value rest M) (value m) := by
      show npMaxLoop value rest (max M (value m)) = _
      exact npMaxLoop_max value rest M (value m)
    have hab_unf : abMaxLoop recurse beta (m :: rest) M a
        = if beta ≤ max a (recurse m a) then max M (recurse m a)
          else abMaxLoop recurse beta rest (max M (recurse m a)) (max a (recurse m a)) := by
      simp [abMaxLoop]
    rw [hab_unf, hnp]
    set e := recurse m a with he
    set F := npMaxLoop value rest M with hF
    set w := value m with hw
    have hFM : M ≤ F := npMaxLoop_init_le value rest M
    by_cases hprune : beta ≤ max a e
    · rw [if_pos hprune]
      have hbe : beta ≤ e := by
        rcases le_max_iff.mp hprune with h | h
        · omega
        · exact h
      have hbw : beta ≤ w := by
        by_contra hlt
        push_neg at hlt
        by_cases hwa : w ≤ a
        · obtain ⟨h1, _⟩ := hlow hwa; omega
        · push_neg at hwa
          have := hmid hwa hlt
          omega
      obtain ⟨hbe', hew⟩ := hhigh hbw
      refine ⟨?_, ?_, ?_⟩
      · intro hD
        have := le_max_right F w
        omega
      · intro _
        constructor
        · have := le_max_right M e
          omega
        · exact max_le_max hFM hew
      · intro _ h2
        have := le_max_right F w
        omega
    · rw [if_neg hprune]
      push_neg at hprune
      have hee : e ≤ max a e := le_max_right a e
      have hM'min : intMin ≤ max M e := le_trans hMmin (le_max_left M e)
      have hM'a' : max M e ≤ max a e := max_le_max hMa (le_refl e)
      obtain ⟨ih1, ih2, ih3⟩ := ih (max M e) (max a e) hM'min hM'a' hprune
      have hnp' : npMaxLoop value rest (max M e) = max F e := npMaxLoop_max value rest M e
      rw [hnp'] at ih1 ih2 ih3
      by_cases hwa : w ≤ a
      · obtain ⟨hea, hwe⟩ := hlow hwa
        have hmaxae : max a e = a := max_eq_left hea
        rw [hmaxae] at ih1 ih2 ih3 ⊢
        refine ⟨?_, ?_, ?_⟩
        · intro hD
          have hFa : F ≤ a := le_trans (le_max_left F w) hD
          have hD' : max F e ≤ a := max_le hFa hea
          obtain ⟨c1, c2⟩ := ih1 hD'
          refine ⟨c1, ?_⟩
          exact le_trans (max_le_max (le_refl F) hwe) c2
        · intro hbD
          have hbF : beta ≤ F := by
            rcases le_max_iff.mp hbD with h | h
            · exact h
            · omega
          obtain ⟨c1, c2⟩ := ih2 (le_trans hbF (le_max_left F e))
          refine ⟨c1, ?_⟩
          have hFe : max F e = F := max_eq_left (by omega)
          rw [hFe] at c2
          exact le_trans c2 (le_max_left F w)
        · intro h1 h2
          have hFw : max F w = F := by
            rcases max_cases F w with ⟨hh, _⟩ | ⟨hh, hcmp⟩
            · exact hh
            · omega
          rw [hFw] at h1 h2 ⊢
          have hFe : max F e = F := max_eq_left (by omega)
          rw [hFe] at ih3
          exact ih3 h1 h2
      · push_neg at hwa
        have hwb : w < beta := by
          by_contra hge
          push_neg at hge
          obtain ⟨hbe2, _⟩ := hhigh hge
          omega
        have hew : e = w := hmid hwa hwb
        rw [hew] at ih1 ih2 ih3 ⊢
        have ha'w : max a w = w := max_eq_right (le_of_lt hwa)
        rw [ha'w] at ih1 ih2 ih3 ⊢
        refine ⟨?_, ?_, ?_⟩
        · intro hD
          have := le_max_right F w
          omega
        · intro hbD
          exact ih2 hbD
        · intro h1 h2
          by_cases hwD : w < max F w
          · exact ih3 hwD h2
          · have hwD' : max F w = w := by
              have := le_max_right F w
              omega
            obtain ⟨c1, c2⟩ := ih1 (le_of_eq hwD')
            omega

/-- Fail-soft correctness of the pruned minimizing loop relative to the
exhaustive minimizing loop, given the same property for every child. -/
theorem abMinLoop_spec
    (value : Nat → Int) (recurse : Nat → Int → Int) (alpha : Int)
    (hrec : ∀ m bt, bt ≤ intMax → alpha < bt →
      (value m ≤ alpha → recurse m bt ≤ alpha ∧ value m ≤ recurse m bt) ∧
      (bt ≤ value m → bt ≤ recurse m bt ∧ recurse m bt ≤ value m) ∧
      (alpha < value m → value m < bt → recurse m bt = value m)) :
    ∀ (ms : List Nat) (M bt : Int), M ≤ intMax → bt ≤ M → alpha < bt →
      (npMinLoop value ms M ≤ alpha →
        abMinLoop recurse alpha ms M bt ≤ alpha ∧
          npMinLoop value ms M ≤ abMinLoop recurse alpha ms M bt) ∧
      (bt ≤ npMinLoop value ms M →
        bt ≤ abMinLoop recurse alpha ms M bt ∧
          abMinLoop recurse alpha ms M bt ≤ npMinLoop value ms M) ∧
      (alpha < npMinLoop value ms M → npMinLoop value ms M < bt →
        abMinLoop recurse alpha ms M bt = npMinLoop value ms M) := by
  intro ms
  induction ms with
  | nil =>
    intro M bt hMmax hbtM hab
    simp only [abMinLoop, npMinLoop]
    omega
  | cons m rest ih =>
    intro M bt hMmax hbtM hab
    obtain ⟨hlow, hhigh, hmid⟩ := hrec m bt (le_trans hbtM hMmax) hab
    have hnp : npMinLoop value (m :: rest) M
        = min (npMinLoop value rest M) (value m) := by
      show npMinLoop value rest (min M (value m)) = _
      exact npMinLoop_min value rest M (value m)
    have hab_unf : abMinLoop recurse alpha (m :: rest) M bt
        = if min bt (recurse m bt) ≤ alpha then min M (recurse m bt)
          else abMinLoop recurse alpha rest (min M (recurse m bt)) (min bt (recurse m bt)) := by
      simp [abMinLoop]
    rw [hab_unf, hnp]
    set e := recurse m bt with he
    set F := npMinLoop value rest M with hF
    set w := value m with hw
    have hFM : F ≤ M := npMinLoop_le_init value rest M
    by_cases hprune : min bt e ≤ alpha
    · rw [if_pos hprune]
      have hea : e ≤ alpha := by
        rcases min_le_iff.mp hprune with h | h
        · omega
        · exact h
      have hwa : w ≤ alpha := by
        by_contra hlt
        push_neg at hlt
        by_cases hwb : bt ≤ w
        · obtain ⟨h1, _⟩ := hhigh hwb; omega
        · push_neg at hwb
          have := hmid hlt hwb
          omega
      obtain ⟨hea', hwe⟩ := hlow hwa
      refine ⟨?_, ?_, ?_⟩
      · intro _
        constructor
        · have := min_le_right M e
          omega
        · exact min_le_min hFM hwe
      · intro hD
        have := min_le_right F w
        omega
      · intro h1 _
        have := min_le_right F w
        omega
    · rw [if_neg hprune]
      push_neg at hprune
      have hM'max : min M e ≤ intMax := le_trans (min_le_left M e) hMmax
      have hb'M' : min bt e ≤ min M e := min_le_min hbtM (le_refl e)
      obtain ⟨ih1, ih2, ih3⟩ := ih (min M e) (min bt e) hM'max hb'M' hprune
      have hnp' : npMinLoop value rest (min M e) = min F e := npMinLoop_min value rest M e
      rw [hnp'] at ih1 ih2 ih3
      by_cases hwb : bt ≤ w
      · obtain ⟨hbe, hew⟩ := hhigh hwb
        have hminbe : min bt e = bt := min_eq_left hbe
        rw [hminbe] at ih1 ih2 ih3 ⊢
        refine ⟨?_, ?_, ?_⟩
        · intro hD
          have hFa : F ≤ alpha := by
            rcases min_le_iff.mp hD with h | h
            · exact h
            · omega
          obtain ⟨c1, c2⟩ := ih1 (le_trans (min_le_left F e) hFa)
          refine ⟨c1, ?_⟩
          have hFe : min F e = F := min_eq_left (by omega)
          have hFw : min F w = F := min_eq_left (by omega)
          rw [hFe] at c2
          rw [hFw]
          exact c2
        · intro hbD
          have hbF : bt ≤ F := by
            rcases le_min_iff.mp hbD with ⟨h1, h2⟩
            exact h1
          obtain ⟨c1, c2⟩ := ih2 (le_min hbF hbe)
          refine ⟨c1, ?_⟩
          exact le_trans c2 (min_le_min (le_refl F) hew)
        · intro h1 h2
          have hFw : min F w = F := by
            rcases min_cases F w with ⟨hh, _⟩ | ⟨hh, hcmp⟩
            · exact hh
            · omega
          rw [hFw] at h1 h2 ⊢
          have hFe : min F e = F := min_eq_left (by omega)
          rw [hFe] at ih3
          exact ih3 h1 h2
      · push_neg at hwb
        have haw : alpha < w := by
          by_contra hge
          push_neg at hge
          obtain ⟨hea2, _⟩ := hlow hge
          have := min_le_right bt e
          omega
        have hew : e = w := hmid haw hwb
        rw [hew] at ih1 ih2 ih3 ⊢
        have hb'w : min bt w = w := min_eq_right (le_of_lt hwb)
        rw [hb'w] at ih1 ih2 ih3 ⊢
        refine ⟨?_, ?_, ?_⟩
        · intro hD
          exact ih1 hD
        · intro hbD
          have := min_le_right F w
          omega
        · intro h1 h2
          by_cases hwD : min F w < w
          · exact ih3 h1 hwD
          · have hwD' : min F w = w := by
              have := min_le_right F w
              omega
            obtain ⟨c1, c2⟩ := ih2 (le_of_eq hwD'.symm)
            omega

/-- Knuth–Moore-style correctness of the pruned search: inside the window
the pruned value equals the exhaustive value; outside it fails in the same
direction, bounded by the exhaustive value. -/
theorem minimax_ab_spec :
    ∀ (d : Nat) (b : Board) (mz : Bool) (p : PlayerColor) (alpha beta : Int),
      intMin ≤ alpha → beta ≤ intMax → alpha < beta →
      (minimax_np d b mz p ≤ alpha →
        minimax d b alpha beta mz p ≤ alpha ∧
          minimax_np d b mz p ≤ minimax d b alpha beta mz p) ∧
      (beta ≤ minimax_np d b mz p →
        beta ≤ minimax d b alpha beta mz p ∧
          minimax d b alpha beta mz p ≤ minimax_np d b mz p) ∧
      (alpha < minimax_np d b mz p → minimax_np d b mz p < beta →
        minimax d b alpha beta mz p = minimax_np d b mz p) := by
  intro d
  induction d with
  | zero =>
    intro b mz p alpha beta h1 h2 h3
    have e1 : minimax 0 b alpha beta mz p = evaluate_board b p := rfl
    have e2 : minimax_np 0 b mz p = evaluate_board b p := rfl
    rw [e1, e2]
    omega
  | succ d ih =>
    intro b mz p alpha beta hamin hbmax hab
    by_cases hgo : b.is_game_over = true
    · have e1 : minimax (d + 1) b alpha beta mz p = evaluate_board b p := by
        simp [minimax, hgo]
      have e2 : minimax_np (d + 1) b mz p = evaluate_board b p := by
        simp [minimax_np, hgo]
      rw [e1, e2]
      omega
    · cases mz with
      | true =>
        by_cases hemp : (b.get_valid_moves_list p).isEmpty = true
        · have e1 : minimax (d + 1) b alpha beta true p
              = minimax d b alpha beta false p := by
            simp [minimax, hgo, hemp]
          have e2 : minimax_np (d + 1) b true p = minimax_np d b false p := by
            simp [minimax_np, hgo, hemp]
          rw [e1, e2]
          exact ih b false p alpha beta hamin hbmax hab
        · have e1 : minimax (d + 1) b alpha beta true p
              = abMaxLoop (fun m a => minimax d (b.make_move m p).1 a beta false p) beta
                  (b.get_valid_moves_list p) intMin alpha := by
            simp [minimax, hgo, hemp]
          have e2 : minimax_np (d + 1) b true p
              = npMaxLoop (fun m => minimax_np d (b.make_move m p).1 false p)
                  (b.get_valid_moves_list p) intMin := by
            simp [minimax_np, hgo, hemp]
          rw [e1, e2]
          exact abMaxLoop_spec
            (fun m => minimax_np d (b.make_move m p).1 false p)
            (fun m a => minimax d (b.make_move m p).1 a beta false p) beta
            (fun m a ha hab' => ih (b.make_move m p).1 false p a beta ha hbmax hab')
            (b.get_valid_moves_list p) intMin alpha (le_refl intMin) hamin hab
      | false =>
        by_cases hemp : (b.get_valid_moves_list p.opposite).isEmpty = true
        · have e1 : minimax (d + 1) b alpha beta false p
              = minimax d b alpha beta true p := by
            simp [minimax, hgo, hemp]
          have e2 : minimax_np (d + 1) b false p = minimax_np d b true p := by
            simp [minimax_np, hgo, hemp]
          rw [e1, e2]
          exact ih b true p alpha beta hamin hbmax hab
        · have e1 : minimax (d + 1) b alpha beta false p
              = abMinLoop
                  (fun m bt => minimax d (b.make_move m p.opposite).1 alpha bt true p) alpha
                  (b.get_valid_moves_list p.opposite) intMax beta := by
            simp [minimax, hgo, hemp]
          have e2 : minimax_np (d + 1) b false p
              = npMinLoop (fun m => minimax_np d (b.make_move m p.opposite).1 true p)
                  (b.get_valid_moves_list p.opposite) intMax := by
            simp [minimax_np, hgo, hemp]
          rw [e1, e2]
          exact abMinLoop_spec
            (fun m => minimax_np d (b.make_move m p.opposite).1 true p)
            (fun m bt => minimax d (b.make_move m p.opposite).1 alpha bt true p) alpha
            (fun m bt hb hab' => ih (b.make_move m p.opposite).1 true p alpha bt hamin hb hab')
            (b.get_valid_moves_list p.opposite) intMax beta (le_refl intMax) hbmax hab

/-- With the full initial window `(i32::MIN, i32::MAX)`, the pruned search
returns exactly the exhaustive minimax value. -/
theorem minimax_full (d : Nat) (b : Board) (mz : Bool) (p : PlayerColor) :
    minimax d b intMin intMax mz p = minimax_np d b mz p := by
  obtain ⟨h1, h2, h3⟩ :=
    minimax_ab_spec d b mz p intMin intMax (le_refl intMin) (le_refl intMax) (by decide)
  obtain ⟨hlo, hhi⟩ := minimax_np_bounds d b mz p
  rcases lt_or_eq_of_le hlo with hlt | heq
  · rcases lt_or_eq_of_le hhi with hlt2 | heq2
    · exact h3 hlt hlt2
    · obtain ⟨c1, c2⟩ := h2 (le_of_eq heq2.symm)
      omega
  · obtain ⟨c1, c2⟩ := h1 (le_of_eq heq.symm)
    omega

theorem pickMax_spec :
    ∀ (rest : List (Nat × Int)) (head : Nat × Int),
      (∀ y ∈ rest, head.1 < y.1) → List.Pairwise (fun a b => a.1 < b.1) rest →
      (pickMax head rest = head ∨ pickMax head rest ∈ rest) ∧
      head.2 ≤ (pickMax head rest).2 ∧
      (∀ y ∈ rest, y.2 ≤ (pickMax head rest).2) ∧
      (head.2 = (pickMax head rest).2 → head.1 ≤ (pickMax head rest).1) ∧
      (∀ y ∈ rest, y.2 = (pickMax head rest).2 → y.1 ≤ (pickMax head rest).1) := by
  intro rest
  induction rest with
  | nil =>
    intro head _ _
    simp [pickMax]
  | cons z rest ih =>
    intro head hlt hpw
    have hunf : pickMax head (z :: rest) = pickMax (if head.2 > z.2 then head else z) rest := by
      simp [pickMax]
    have hz_lt : ∀ y ∈ rest, z.1 < y.1 := fun y hy => (List.pairwise_cons.mp hpw).1 y hy
    have hpw' : List.Pairwise (fun a b => a.1 < b.1) rest := (List.pairwise_cons.mp hpw).2
    have hh_lt : ∀ y ∈ rest, (if head.2 > z.2 then head else z).1 < y.1 := by
      intro y hy
      by_cases hgt : head.2 > z.2
      · rw [if_pos hgt]; exact hlt y (by simp [hy])
      · rw [if_neg hgt]; exact hz_lt y hy
    obtain ⟨hmem, hle, hall, htie, hties⟩ := ih (if head.2 > z.2 then head else z) hh_lt hpw'
    rw [hunf]
    by_cases hgt : head.2 > z.2
    · rw [if_pos hgt] at hmem hle htie hties hall ⊢
      refine ⟨?_, hle, ?_, htie, ?_⟩
      · rcases hmem with h | h
        · exact Or.inl h
        · exact Or.inr (by simp [h])
      · intro y hy
        rcases List.mem_cons.mp hy with h | h
        · subst h; omega
        · exact hall y h
      · intro y hy hy2
        rcases List.mem_cons.mp hy with h | h
        · subst h; omega
        · exact hties y h hy2
    · rw [if_neg hgt] at hmem hle htie hties hall ⊢
      have hhz : head.2 ≤ z.2 := by omega
      refine ⟨?_, le_trans hhz hle, ?_, ?_, ?_⟩
      · rcases hmem with h | h
        · exact Or.inr (by simp [h])
        · exact Or.inr (by simp [h])
      · intro y hy
        rcases List.mem_cons.mp hy with h | h
        · subst h; exact hle
        · exact hall y h
      · intro hh2
        have hz2 : z.2 = (pickMax z rest).2 := by omega
        have := htie hz2
        have hhz1 : head.1 < z.1 := hlt z (by simp)
        omega
      · intro y hy hy2
        rcases List.mem_cons.mp hy with h | h
        · subst h; exact htie hy2
        · exact hties y h hy2

theorem gvml_sorted (b : Board) (p : PlayerColor) :
    List.Pairwise (· < ·) (b.get_valid_moves_list p) := by
  simp only [Board.get_valid_moves_list]
  exact List.Pairwise.sublist (List.filter_sublist _) (List.pairwise_lt_range 64)

/-!
## Claims
-/

/-- C3 (counterexample): the claim locates Black's opening moves at
row/col (2,3), (3,2), (4,5), (5,4); but (2,3) — position 19 — is not a
legal move for Black on the starting board. -/
theorem c3_counterexample :
    Board.new.is_valid_move (Board.coords_to_position 2 3) PlayerColor.Black = false := by
  decide

/-- C3 (amended): on the starting board Black has exactly the 4 legal moves
(2,4), (3,5), (4,2), (5,3) (positions 20, 29, 34, 43); each flips exactly
one disc and leaves 4 Black and 1 White disc. -/
theorem c3_start_scenario :
    Board.new.get_valid_moves_list PlayerColor.Black =
      [Board.coords_to_position 2 4, Board.coords_to_position 3 5,
       Board.coords_to_position 4 2, Board.coords_to_position 5 3] ∧
    (Board.new.get_valid_moves_list PlayerColor.Black).all
      (fun m =>
        (popcount64 (Board.new.get_flipped_discs m PlayerColor.Black) == 1) &&
        ((Board.new.make_move m PlayerColor.Black).2 == true) &&
        ((Board.new.make_move m PlayerColor.Black).1.count_pieces PlayerColor.Black == 4) &&
        ((Board.new.make_move m PlayerColor.Black).1.count_pieces PlayerColor.White == 1))
      = true := by
  constructor
  · decide
  · decide

/-- C4 (counterexample): a successful `make_move` adds 1 + (discs flipped)
to the *mover's* count only; the total black+white count grows by exactly 1,
not by 1 + flips.  On the starting board, Black playing position 20 flips
one disc: the total goes from 4 to 5, not to 6 as the claim predicts. -/
theorem c4_counterexample :
    (Board.new.make_move 20 PlayerColor.Black).2 = true ∧
    popcount64 (Board.new.get_flipped_discs 20 PlayerColor.Black) = 1 ∧
    Board.new.count_pieces PlayerColor.Black + Board.new.count_pieces PlayerColor.White = 4 ∧
    ((Board.new.make_move 20 PlayerColor.Black).1.count_pieces PlayerColor.Black +
      (Board.new.make_move 20 PlayerColor.Black).1.count_pieces PlayerColor.White) = 5 ∧
    (((Board.new.make_move 20 PlayerColor.Black).1.count_pieces PlayerColor.Black +
      (Board.new.make_move 20 PlayerColor.Black).1.count_pieces PlayerColor.White)
        == (Board.new.count_pieces PlayerColor.Black
            + Board.new.count_pieces PlayerColor.White + 1
            + popcount64 (Board.new.get_flipped_discs 20 PlayerColor.Black))) = false := by
  refine ⟨by decide, by decide, by decide, by decide, by decide⟩

/-- C4 (amended): with the no-overlap invariant, a successful `make_move`
adds exactly 1 to the total disc count; the mover gains 1 + flips discs and
the opponent loses exactly the flipped discs. -/
theorem c4_make_move_counts (b : Board) (pos : Nat) (p : PlayerColor)
    (hdisj : b.black &&& b.white = 0) (hv : b.is_valid_move pos p = true) :
    ((b.make_move pos p).1.count_pieces PlayerColor.Black
      + (b.make_move pos p).1.count_pieces PlayerColor.White)
      = (b.count_pieces PlayerColor.Black + b.count_pieces PlayerColor.White) + 1 ∧
    (b.make_move pos p).1.count_pieces p
      = b.count_pieces p + 1 + popcount64 (b.get_flipped_discs pos p) ∧
    ((b.make_move pos p).1.count_pieces p.opposite
        + popcount64 (b.get_flipped_discs pos p)
      = b.count_pieces p.opposite) := by
  obtain ⟨hpos, hbe, hwe, _⟩ := is_valid_move_elim hv
  have hflip := get_flipped_discs_spec b pos p
  cases p with
  | Black =>
    obtain ⟨hc1, hc2⟩ := popcount_make b.black b.white pos
      (b.get_flipped_discs pos PlayerColor.Black) hpos hbe hwe
      (land_eq_zero_iff.mp hdisj) (fun i hf => (hflip i hf).1)
    have hb' : (b.make_move pos PlayerColor.Black).1
        = { black := b.black ||| ((1 <<< pos) ||| b.get_flipped_discs pos PlayerColor.Black),
            white := b.white &&& (mask64 ^^^ b.get_flipped_discs pos PlayerColor.Black) } := by
      simp [Board.make_move, hv]
    rw [hb']
    simp only [Board.count_pieces, PlayerColor.opposite]
    exact ⟨by omega, by omega, by omega⟩
  | White =>
    have hdisj' : b.white &&& b.black = 0 := by rw [Nat.land_comm]; exact hdisj
    obtain ⟨hc1, hc2⟩ := popcount_make b.white b.black pos
      (b.get_flipped_discs pos PlayerColor.White) hpos hwe hbe
      (land_eq_zero_iff.mp hdisj') (fun i hf => (hflip i hf).1)
    have hb' : (b.make_move pos PlayerColor.White).1
        = { black := b.black &&& (mask64 ^^^ b.get_flipped_discs pos PlayerColor.White),
            white := b.white ||| ((1 <<< pos) ||| b.get_flipped_discs pos PlayerColor.White) } := by
      simp [Board.make_move, hv]
    rw [hb']
    simp only [Board.count_pieces, PlayerColor.opposite]
    exact ⟨by omega, by omega, by omega⟩

/-- C4 (witness): Black playing position 20 on the starting board. -/
theorem c4_make_move_counts_witness :
    (Board.new.black &&& Board.new.white = 0 ∧
      Board.new.is_valid_move 20 PlayerColor.Black = true) ∧
    (((Board.new.make_move 20 PlayerColor.Black).1.count_pieces PlayerColor.Black
      + (Board.new.make_move 20 PlayerColor.Black).1.count_pieces PlayerColor.White)
      = (Board.new.count_pieces PlayerColor.Black
          + Board.new.count_pieces PlayerColor.White) + 1 ∧
    (Board.new.make_move 20 PlayerColor.Black).1.count_pieces PlayerColor.Black
      = Board.new.count_pieces PlayerColor.Black + 1
          + popcount64 (Board.new.get_flipped_discs 20 PlayerColor.Black) ∧
    ((Board.new.make_move 20 PlayerColor.Black).1.count_pieces PlayerColor.Black.opposite
        + popcount64 (Board.new.get_flipped_discs 20 PlayerColor.Black)
      = Board.new.count_pieces PlayerColor.Black.opposite)) :=
  ⟨⟨by decide, by decide⟩,
    c4_make_move_counts Board.new 20 PlayerColor.Black (by decide) (by decide)⟩

/-- C6: every board reachable from the starting position through
`make_move` satisfies `black &&& white = 0`. -/
theorem c6_reachable_disjoint (b : Board) (h : Reachable b) :
    b.black &&& b.white = 0 := by
  induction h with
  | start => decide
  | step b pos p _ ih => exact make_move_disjoint b pos p ih

/-- C6 (witness): the starting board is reachable and disjoint. -/
theorem c6_reachable_disjoint_witness :
    Board.new.black &&& Board.new.white = 0 :=
  c6_reachable_disjoint Board.new Reachable.start

/-- C5 (counterexample): `evaluate_stability` never subtracts for opponent
border discs.  With a single White disc on the border corner cell 0, the
stability score for Black is 0, not −50 as the claim requires. -/
theorem c5_counterexample :
    ({ black := 0, white := 1 } : Board).get_piece 0 = some PlayerColor.White ∧
    is_stable_piece { black := 0, white := 1 } 0 = true ∧
    evaluate_stability { black := 0, white := 1 } PlayerColor.Black = 0 ∧
    (evaluate_stability { black := 0, white := 1 } PlayerColor.Black == (-50 : Int)) = false := by
  refine ⟨by decide, by decide, by decide, by decide⟩

/-- C5 (amended): the stability sub-score is one-sided: it is exactly 50
times the number of the *player's* discs on border cells, and opponent
discs contribute nothing. -/
theorem c5_stability_formula :
    ∀ b : Board,
      evaluate_stability b PlayerColor.Black
        = (popcount64 (b.black &&& borderMask) : Int) * 50 ∧
      evaluate_stability b PlayerColor.White
        = (popcount64 (b.white &&& borderMask) : Int) * 50 := by
  intro b
  have key : ∀ mask : Nat,
      (List.range 64).foldl
        (fun count position =>
          if mask.testBit position && is_stable_piece b position then count + 1 else count)
        (0 : Int)
        = (popcount64 (mask &&& borderMask) : Int) := by
    intro mask
    rw [foldl_count_int]
    have hcong : (List.range 64).countP
        (fun position => mask.testBit position && is_stable_piece b position)
        = (List.range 64).countP (fun i => (mask &&& borderMask).testBit i) := by
      apply countP_congr'
      intro x hx
      have hx64 : x < 64 := List.mem_range.mp hx
      rw [Nat.testBit_and, is_stable_piece_eq_borderMask b x hx64]
    rw [hcong]
    simp [popcount64]
  constructor
  · simp only [evaluate_stability]
    rw [key b.black]
  · simp only [evaluate_stability]
    rw [key b.white]

/-- C7: `is_game_over` is true exactly when both colours have an empty
legal-move mask; and on the concrete board with Black = {0}, White = {1},
White has no legal move while Black does, and the game is not over. -/
theorem c7_game_over_iff :
    (∀ b : Board, b.is_game_over = true ↔
      (b.get_valid_moves PlayerColor.Black = 0 ∧ b.get_valid_moves PlayerColor.White = 0)) ∧
    ({ black := 1, white := 2 } : Board).get_valid_moves PlayerColor.White = 0 ∧
    ({ black := 1, white := 2 } : Board).get_valid_moves PlayerColor.Black = 4 ∧
    ({ black := 1, white := 2 } : Board).is_game_over = false := by
  refine ⟨?_, by decide, by decide, by decide⟩
  intro b
  simp [Board.is_game_over]

/-- C8: an invalid (position, player) is rejected: `make_move` returns
`false` and the board is bit-for-bit unchanged, and a second identical call
does the same. -/
theorem c8_illegal_rejected (b : Board) (pos : Nat) (p : PlayerColor)
    (h : b.is_valid_move pos p = false) :
    b.make_move pos p = (b, false) ∧
    ((b.make_move pos p).1.make_move pos p = (b, false)) := by
  have h1 : b.make_move pos p = (b, false) := by
    simp [Board.make_move, h]
  exact ⟨h1, by rw [h1]; exact h1⟩

/-- C8 (witness). -/
theorem c8_illegal_rejected_witness :
    Board.new.is_valid_move 0 PlayerColor.Black = false ∧
    (Board.new.make_move 0 PlayerColor.Black = (Board.new, false) ∧
      ((Board.new.make_move 0 PlayerColor.Black).1.make_move 0 PlayerColor.Black
        = (Board.new, false))) :=
  ⟨by decide, c8_illegal_rejected Board.new 0 PlayerColor.Black (by decide)⟩

/-- C9: any position ≥ 64 is rejected by the range check in
`is_valid_move` (before any shift could occur), so `make_move` returns
`false` and leaves the board unchanged. -/
theorem c9_out_of_range (b : Board) (pos : Nat) (p : PlayerColor) (h : 64 ≤ pos) :
    b.is_valid_move pos p = false ∧ b.make_move pos p = (b, false) := by
  have hv : b.is_valid_move pos p = false := by
    simp [Board.is_valid_move, h]
  exact ⟨hv, by simp [Board.make_move, hv]⟩

/-- C9 (witness). -/
theorem c9_out_of_range_witness :
    (64 : Nat) ≤ 64 ∧
    (Board.new.is_valid_move 64 PlayerColor.Black = false ∧
      Board.new.make_move 64 PlayerColor.Black = (Board.new, false)) :=
  ⟨by decide, c9_out_of_range Board.new 64 PlayerColor.Black (by decide)⟩

/-- C10: `get_winner` is `none` exactly on running games and ties, and
otherwise names the colour with the strictly larger disc count. -/
theorem c10_get_winner (b : Board) :
    (b.get_winner = none ↔
      (b.is_game_over = false ∨
        b.count_pieces PlayerColor.Black = b.count_pieces PlayerColor.White)) ∧
    (b.get_winner = some PlayerColor.Black ↔
      (b.is_game_over = true ∧
        b.count_pieces PlayerColor.White < b.count_pieces PlayerColor.Black)) ∧
    (b.get_winner = some PlayerColor.White ↔
      (b.is_game_over = true ∧
        b.count_pieces PlayerColor.Black < b.count_pieces PlayerColor.White)) := by
  cases hgo : b.is_game_over with
  | false => simp [Board.get_winner, hgo]
  | true =>
    rcases Nat.lt_trichotomy (b.count_pieces PlayerColor.Black)
        (b.count_pieces PlayerColor.White) with h | h | h
    · have h1 : ¬ b.count_pieces PlayerColor.Black > b.count_pieces PlayerColor.White := by omega
      have h2 : b.count_pieces PlayerColor.White > b.count_pieces PlayerColor.Black := h
      simp [Board.get_winner, hgo, h1, h2]
      omega
    · have h1 : ¬ b.count_pieces PlayerColor.Black > b.count_pieces PlayerColor.White := by omega
      have h2 : ¬ b.count_pieces PlayerColor.White > b.count_pieces PlayerColor.Black := by omega
      simp [Board.get_winner, hgo, h1, h2]
      omega
    · have h1 : b.count_pieces PlayerColor.Black > b.count_pieces PlayerColor.White := h
      simp [Board.get_winner, hgo, h1]
      omega

/-- C1 (counterexample): on the starting board at depth 1 all four legal
moves tie on minimax score, and `find_best_move` returns position 43 — the
*last* of the tied moves — not the first (position 20) as the claim states. -/
theorem c1_counterexample :
    Board.new.get_valid_moves_list PlayerColor.Black = [20, 29, 34, 43] ∧
    minimax 0 ((Board.new.make_move 20 PlayerColor.Black).1) intMin intMax false PlayerColor.Black
      = minimax 0 ((Board.new.make_move 43 PlayerColor.Black).1) intMin intMax false
          PlayerColor.Black ∧
    minimax 0 ((Board.new.make_move 29 PlayerColor.Black).1) intMin intMax false PlayerColor.Black
      = minimax 0 ((Board.new.make_move 43 PlayerColor.Black).1) intMin intMax false
          PlayerColor.Black ∧
    minimax 0 ((Board.new.make_move 34 PlayerColor.Black).1) intMin intMax false PlayerColor.Black
      = minimax 0 ((Board.new.make_move 43 PlayerColor.Black).1) intMin intMax false
          PlayerColor.Black ∧
    (find_best_move Board.new 1 PlayerColor.Black).best_move = some 43 := by
  refine ⟨by decide, by decide, by decide, by decide, by decide⟩

/-- C1 (amended): `find_best_move` returns a legal move attaining the
maximum minimax score; when several moves tie for the maximum, the *last*
such move in enumeration order (increasing board position) is returned,
because Rust's `max_by_key` keeps the later of equally-keyed elements. -/
theorem c1_find_best_move (b : Board) (depth : Nat) (p : PlayerColor)
    (hd : 1 ≤ depth) (hne : b.get_valid_moves_list p ≠ []) :
    ∃ m : Nat,
      (find_best_move b depth p).best_move = some m ∧
      m ∈ b.get_valid_moves_list p ∧
      (find_best_move b depth p).evaluation
        = minimax (depth - 1) (b.make_move m p).1 intMin intMax false p ∧
      (∀ m' ∈ b.get_valid_moves_list p,
        minimax (depth - 1) (b.make_move m' p).1 intMin intMax false p
          ≤ minimax (depth - 1) (b.make_move m p).1 intMin intMax false p) ∧
      (∀ m' ∈ b.get_valid_moves_list p,
        minimax (depth - 1) (b.make_move m' p).1 intMin intMax false p
          = minimax (depth - 1) (b.make_move m p).1 intMin intMax false p → m' ≤ m) := by
  rcases hm : b.get_valid_moves_list p with _ | ⟨m0, rest⟩
  · exact absurd hm hne
  · clear hne hd
    have hsorted := gvml_sorted b p
    rw [hm] at hsorted
    obtain ⟨hm0lt, hrestpw⟩ := List.pairwise_cons.mp hsorted
    set s : Nat → Int := fun mv =>
      minimax (depth - 1) (b.make_move mv p).1 intMin intMax false p with hs
    have hfb : find_best_move b depth p =
        { best_move := some (pickMax (m0, s m0) (rest.map (fun mv => (mv, s mv)))).1,
          evaluation := (pickMax (m0, s m0) (rest.map (fun mv => (mv, s mv)))).2,
          depth_reached := depth, nodes_evaluated := 0, completed := true } := by
      unfold find_best_move
      rw [hm]
    have hmaplt : ∀ y ∈ rest.map (fun mv => (mv, s mv)), (m0, s m0).1 < y.1 := by
      intro y hy
      obtain ⟨mv, hmv, rfl⟩ := List.mem_map.mp hy
      exact hm0lt mv hmv
    have hmappw : List.Pairwise (fun a b : Nat × Int => a.1 < b.1)
        (rest.map (fun mv => (mv, s mv))) := by
      rw [List.pairwise_map]
      exact hrestpw
    obtain ⟨hmem, hle, hall, htie, hties⟩ :=
      pickMax_spec (rest.map (fun mv => (mv, s mv))) (m0, s m0) hmaplt hmappw
    set best := pickMax (m0, s m0) (rest.map (fun mv => (mv, s mv))) with hbest
    have hshape : best = (best.1, s best.1) ∧ best.1 ∈ m0 :: rest := by
      rcases hmem with h | h
      · rw [h]; exact ⟨rfl, by simp⟩
      · obtain ⟨mv, hmv, heq⟩ := List.mem_map.mp h
        rw [← heq]
        exact ⟨rfl, by simp [hmv]⟩
    refine ⟨best.1, ?_, ?_, ?_, ?_, ?_⟩
    · rw [hfb]
    · exact hshape.2
    · rw [hfb]
      show best.2 = s best.1
      exact congrArg Prod.snd hshape.1
    · intro m' hm'
      have hb2 : best.2 = s best.1 := congrArg Prod.snd hshape.1
      show s m' ≤ s best.1
      rw [← hb2]
      rcases List.mem_cons.mp hm' with h | h
      · subst h; exact hle
      · exact hall (m', s m') (List.mem_map.mpr ⟨m', h, rfl⟩)
    · intro m' hm' heq
      have hb2 : best.2 = s best.1 := congrArg Prod.snd hshape.1
      have heq' : s m' = best.2 := by
        rw [hb2]
        exact heq
      rcases List.mem_cons.mp hm' with h | h
      · subst h
        exact htie heq'
      · exact hties (m', s m') (List.mem_map.mpr ⟨m', h, rfl⟩) heq'

/-- C1 (witness): the starting board at depth 1. -/
theorem c1_find_best_move_witness :
    ∃ m : Nat,
      (find_best_move Board.new 1 PlayerColor.Black).best_move = some m ∧
      m ∈ Board.new.get_valid_moves_list PlayerColor.Black ∧
      (find_best_move Board.new 1 PlayerColor.Black).evaluation
        = minimax 0 (Board.new.make_move m PlayerColor.Black).1 intMin intMax false
            PlayerColor.Black ∧
      (∀ m' ∈ Board.new.get_valid_moves_list PlayerColor.Black,
        minimax 0 (Board.new.make_move m' PlayerColor.Black).1 intMin intMax false
            PlayerColor.Black
          ≤ minimax 0 (Board.new.make_move m PlayerColor.Black).1 intMin intMax false
              PlayerColor.Black) ∧
      (∀ m' ∈ Board.new.get_valid_moves_list PlayerColor.Black,
        minimax 0 (Board.new.make_move m' PlayerColor.Black).1 intMin intMax false
            PlayerColor.Black
          = minimax 0 (Board.new.make_move m PlayerColor.Black).1 intMin intMax false
              PlayerColor.Black → m' ≤ m) :=
  c1_find_best_move Board.new 1 PlayerColor.Black (by decide) (by decide)

/-- C2: at any fixed depth ≥ 1, `find_best_move` driven by the alpha-beta
`minimax` (full initial window) returns exactly the same `SearchResult` —
in particular the same optimal move — as it would with an exhaustive
minimax without pruning. -/
theorem c2_alpha_beta_equiv (b : Board) (depth : Nat) (p : PlayerColor)
    (hd : 1 ≤ depth) :
    find_best_move b depth p = find_best_move_np b depth p := by
  clear hd
  have hfun : ∀ mv : Nat,
      minimax (depth - 1) (b.make_move mv p).1 intMin intMax false p
        = minimax_np (depth - 1) (b.make_move mv p).1 false p :=
    fun mv => minimax_full (depth - 1) (b.make_move mv p).1 false p
  rcases hm : b.get_valid_moves_list p with _ | ⟨m0, rest⟩
  · unfold find_best_move find_best_move_np
    rw [hm]
  · unfold find_best_move find_best_move_np
    rw [hm]
    simp only [hfun]

/-- C2 (witness): a small two-disc position at depth 2. -/
theorem c2_alpha_beta_equiv_witness :
    (1 : Nat) ≤ 2 ∧
    find_best_move { black := 1, white := 2 } 2 PlayerColor.Black
      = find_best_move_np { black := 1, white := 2 } 2 PlayerColor.Black :=
  ⟨by decide, c2_alpha_beta_equiv { black := 1, white := 2 } 2 PlayerColor.Black (by decide)⟩
